import Mathlib

/-!
Verification of the Markov behavior-analysis repository.

This file gives a shallow embedding of the parts of the repository that the
checked properties talk about:

* `app/services/markov_analyzer.py` — `MarkovChainAnalyzer` with its
  `add_user_behavior`, `calculate_transition_probabilities`,
  `predict_next_behavior`, `export_model` and `import_model` methods;
* `enhanced_markov_demo.py` — `EnhancedMarkovChainAnalyzer` with
  `hybrid_prediction` and `category_aware_prediction`;
* `app/services/recommender.py` — `PrivacyPreservingRecommender` with
  `_apply_privacy_protection`, `_encrypt_behavior_data` and
  `_calculate_confidence_score`.

Modelling conventions:

* Python dicts are modelled as association lists (`List (key × value)`),
  which preserves the insertion order Python dicts iterate in; `dict[k] += x`
  on a `defaultdict` updates the first matching entry in place and appends a
  fresh entry at the end when the key is missing, exactly as in CPython.
* Transition counts are incremented by `1` from `0.0`, so they are modelled
  as `Nat`; probabilities (count divisions) are modelled as exact rationals
  `ℚ`, so "sums to 1.0 within floating-point tolerance" becomes `= 1`.
* The cipher (`Fernet`) and the truncated-SHA256 user-id hash of the
  recommender are opaque string functions; they are carried as explicit
  function-valued fields of the recommender state.
* Python truthiness on optional strings (`if user_id:`) is modelled
  explicitly: `none` and `some ""` are both falsy.
-/

namespace MarkovSpec

abbrev Token := String
abbrev Ctx := List String
abbrev Transitions := List (Token × Nat)
abbrev TTable := List (Ctx × Transitions)

/-- Association-list lookup, modelling Python `d[k]` / `k in d` on a dict. -/
def getA {α β : Type} [DecidableEq α] : List (α × β) → α → Option β
  | [], _ => none
  | (k, v) :: rest, key => if k = key then some v else getA rest key

/-- Python `d[t] += 1` on a `defaultdict(float)`: update the first matching
entry in place, append a fresh entry (starting from the implicit `0.0`)
otherwise. -/
def bumpT : Transitions → Token → Transitions
  | [], t => [(t, 1)]
  | (k, c) :: rest, t => if k = t then (k, c + 1) :: rest else (k, c) :: bumpT rest t

/-- Python `table[ctx][t] += 1` on a `defaultdict(lambda: defaultdict(float))`. -/
def bumpTable : TTable → Ctx → Token → TTable
  | [], c, t => [(c, [(t, 1)])]
  | (k, tr) :: rest, c, t =>
      if k = c then (k, bumpT tr t) :: rest else (k, tr) :: bumpTable rest c t

/-- Python `state_counts[ctx] += 1` on a `defaultdict(int)`. -/
def bumpCount : List (Ctx × Nat) → Ctx → List (Ctx × Nat)
  | [], c => [(c, 1)]
  | (k, n) :: rest, c => if k = c then (k, n + 1) :: rest else (k, n) :: bumpCount rest c

/-- Python `user_patterns[u][ctx][t] += 1`; the user entry is guaranteed to
exist by `add_user_behavior` before this is reached, so a missing user is a
no-op here. -/
def bumpUser : List (String × TTable) → String → Ctx → Token → List (String × TTable)
  | [], _, _, _ => []
  | (k, tb) :: rest, u, c, t =>
      if k = u then (k, bumpTable tb c t) :: rest else (k, tb) :: bumpUser rest u c t

/-- State of `MarkovChainAnalyzer` (markov_analyzer.py, `__init__`). -/
structure MarkovChainAnalyzer where
  order : Nat
  transition_matrix : TTable := []
  state_counts : List (Ctx × Nat) := []
  user_patterns : List (String × TTable) := []
  deriving DecidableEq, Repr

/-- The sliding windows `(tokens[i : i+order], tokens[i+order])` for every
index `i` in `range(len(tokens) - order)` (markov_analyzer.py line 34),
produced in increasing order of `i`. -/
def windows (k : Nat) : List Token → List (Ctx × Token)
  | [] => []
  | x :: xs =>
      if k < xs.length + 1 then
        ((x :: xs).take k, ((x :: xs).drop k).headD "") :: windows k xs
      else []

/-- One iteration of the training loop body (markov_analyzer.py lines 34-40):
three coupled increments for a single `(context, next)` window. -/
def trainStep (u : String) (a : MarkovChainAnalyzer) (w : Ctx × Token) :
    MarkovChainAnalyzer :=
  { a with
    user_patterns := bumpUser a.user_patterns u w.1 w.2
    transition_matrix := bumpTable a.transition_matrix w.1 w.2
    state_counts := bumpCount a.state_counts w.1 }

/-- Python `if user_id not in self.user_patterns: self.user_patterns[user_id] = ...`:
append an empty per-user table when the user is new. -/
def ensureUser (ps : List (String × TTable)) (u : String) : List (String × TTable) :=
  if (getA ps u).isSome then ps else ps ++ [(u, [])]

/-- `MarkovChainAnalyzer.add_user_behavior` (markov_analyzer.py lines 18-40). -/
def add_user_behavior (a : MarkovChainAnalyzer) (user_id : String)
    (behavior_sequence : List Token) : MarkovChainAnalyzer :=
  if behavior_sequence.length < a.order + 1 then a
  else
    (windows a.order behavior_sequence).foldl (trainStep user_id)
      { a with user_patterns := ensureUser a.user_patterns user_id }

def transitionsTotal (tr : Transitions) : Nat := (tr.map Prod.snd).sum

/-- One row of `calculate_transition_probabilities`: included only when the
context's own total is positive, and divided by that total. -/
def calcRow (tr : Transitions) : Option (List (Token × ℚ)) :=
  if 0 < transitionsTotal tr then
    some (tr.map fun q => (q.1, (q.2 : ℚ) / (transitionsTotal tr : ℚ)))
  else none

abbrev ProbTable := List (Ctx × List (Token × ℚ))

/-- `MarkovChainAnalyzer.calculate_transition_probabilities`
(markov_analyzer.py lines 42-66).  The scope test is Python
`if user_id and user_id in self.user_patterns` — truthiness of the
optional string plus membership. -/
def calculate_transition_probabilities (a : MarkovChainAnalyzer)
    (user_id : Option String) : ProbTable :=
  let matrix : TTable :=
    match user_id with
    | some u =>
        if u ≠ "" ∧ (getA a.user_patterns u).isSome then (getA a.user_patterns u).getD []
        else a.transition_matrix
    | none => a.transition_matrix
  matrix.filterMap fun p => (calcRow p.2).map fun r => (p.1, r)

/-- The order-2 analyzer of the spec's concrete scenario, trained with the
five-token sequence for user `"u1"`. -/
def demoAnalyzer : MarkovChainAnalyzer :=
  add_user_behavior { order := 2 } "u1"
    ["view_a", "click_a", "view_b", "click_b", "purchase_b"]

lemma row_sum (l : Transitions) (t : ℚ) :
    ((l.map fun q => (q.1, (q.2 : ℚ) / t)).map Prod.snd).sum
      = (((l.map Prod.snd).sum : Nat) : ℚ) / t := by
  induction l with
  | nil => simp
  | cons p rest ih =>
      simp only [List.map_cons, List.sum_cons, ih]
      push_cast
      ring

lemma demoProbs :
    calculate_transition_probabilities demoAnalyzer (some "u1") =
      [(["view_a", "click_a"], [("view_b", 1)]),
       (["click_a", "view_b"], [("click_b", 1)]),
       (["view_b", "click_b"], [("purchase_b", 1)])] := by
  simp [demoAnalyzer, add_user_behavior, windows, trainStep, bumpUser, bumpTable,
    bumpT, bumpCount, ensureUser, getA, calculate_transition_probabilities, calcRow,
    transitionsTotal]

/-- Claim C1: every row of `calculate_transition_probabilities` — in either
scope — is the mapping next-token ↦ count divided by the context's own total,
so its values sum to exactly 1; and the order-2 concrete scenario trained
with `["view_a","click_a","view_b","click_b","purchase_b"]` for `"u1"` maps
context `("view_a","click_a")` to `{"view_b": 1}` and `("view_b","click_b")`
to `{"purchase_b": 1}`. -/
theorem C1_probabilities_normalized
    (a : MarkovChainAnalyzer) (uid : Option String) (ctx : Ctx)
    (row : List (Token × ℚ))
    (h : (ctx, row) ∈ calculate_transition_probabilities a uid) :
    (row.map Prod.snd).sum = 1
      ∧ getA (calculate_transition_probabilities demoAnalyzer (some "u1"))
          ["view_a", "click_a"] = some [("view_b", 1)]
      ∧ getA (calculate_transition_probabilities demoAnalyzer (some "u1"))
          ["view_b", "click_b"] = some [("purchase_b", 1)] := by
  have hscenario1 :
      getA (calculate_transition_probabilities demoAnalyzer (some "u1"))
        ["view_a", "click_a"] = some [("view_b", 1)] := by
    rw [demoProbs]; simp [getA]
  have hscenario2 :
      getA (calculate_transition_probabilities demoAnalyzer (some "u1"))
        ["view_b", "click_b"] = some [("purchase_b", 1)] := by
    rw [demoProbs]; simp [getA]
  refine ⟨?_, hscenario1, hscenario2⟩
  unfold calculate_transition_probabilities at h
  rw [List.mem_filterMap] at h
  obtain ⟨p, _, hmap⟩ := h
  rw [Option.map_eq_some'] at hmap
  obtain ⟨r, hr, heq⟩ := hmap
  unfold calcRow at hr
  by_cases hpos : 0 < transitionsTotal p.2
  · rw [if_pos hpos] at hr
    have hrrow : r = p.2.map fun q => (q.1, (q.2 : ℚ) / (transitionsTotal p.2 : ℚ)) :=
      (Option.some.injEq _ _ ▸ hr).symm
    have hrow : row = p.2.map fun q => (q.1, (q.2 : ℚ) / (transitionsTotal p.2 : ℚ)) := by
      cases heq
      exact hrrow
    subst hrow
    rw [row_sum]
    have hne : (((transitionsTotal p.2 : Nat)) : ℚ) ≠ 0 := by
      exact_mod_cast Nat.pos_iff_ne_zero.mp hpos
    exact div_self hne
  · rw [if_neg hpos] at hr
    exact absurd hr (by simp)

/-- Witness for C1 at a concrete trained context. -/
theorem C1_probabilities_normalized_witness :
    (([("view_b", (1 : ℚ))].map Prod.snd).sum = 1)
      ∧ getA (calculate_transition_probabilities demoAnalyzer (some "u1"))
          ["view_a", "click_a"] = some [("view_b", 1)]
      ∧ getA (calculate_transition_probabilities demoAnalyzer (some "u1"))
          ["view_b", "click_b"] = some [("purchase_b", 1)] :=
  C1_probabilities_normalized demoAnalyzer (some "u1") ["view_a", "click_a"]
    [("view_b", 1)]
    (by rw [demoProbs]; simp)

/-! ### predict_next_behavior (claim C4) -/

/-- Python negative slicing `xs[-k:]` on a list: the last `k` elements, the
whole list when `k = 0` or `k ≥ len(xs)`. -/
def pyLastSlice (k : Nat) (xs : List Token) : Ctx :=
  if k = 0 then xs else xs.drop (xs.length - k)

/-- Scan of Python `max(items, key=lambda x: x[1])`: keep the current best,
replace it only on a strictly greater count (so the first maximal key wins). -/
def maxKeyGo (bt : Token) (bc : Nat) : Transitions → Token
  | [] => bt
  | (t, c) :: rest => if bc < c then maxKeyGo t c rest else maxKeyGo bt bc rest

/-- Python `max(probabilities.items(), key=lambda x: x[1])[0]` guarded by
`if probabilities:` — `none` on an empty dict. -/
def argmaxFirst : Transitions → Option Token
  | [] => none
  | (t, c) :: rest => some (maxKeyGo t c rest)

/-- `MarkovChainAnalyzer.predict_next_behavior` (markov_analyzer.py
lines 68-96). -/
def predict_next_behavior (a : MarkovChainAnalyzer) (user_id : String)
    (current_sequence : List Token) : Option Token :=
  if current_sequence.length < a.order then none
  else
    let current_state := pyLastSlice a.order current_sequence
    match getA a.user_patterns user_id with
    | some ut =>
        match getA ut current_state with
        | some probs => argmaxFirst probs
        | none =>
            match getA a.transition_matrix current_state with
            | some probs => argmaxFirst probs
            | none => none
    | none =>
        match getA a.transition_matrix current_state with
        | some probs => argmaxFirst probs
        | none => none

lemma maxKeyGo_mem (l : Transitions) :
    ∀ bt bc, maxKeyGo bt bc l = bt ∨ maxKeyGo bt bc l ∈ l.map Prod.fst := by
  induction l with
  | nil => intro bt bc; left; rfl
  | cons p rest ih =>
      intro bt bc
      simp only [maxKeyGo, List.map_cons]
      by_cases hc : bc < p.2
      · rw [if_pos hc]
        rcases ih p.1 p.2 with h | h
        · right; rw [h]; exact List.mem_cons_self _ _
        · right; exact List.mem_cons_of_mem _ h
      · rw [if_neg hc]
        rcases ih bt bc with h | h
        · left; exact h
        · right; exact List.mem_cons_of_mem _ h

lemma argmaxFirst_mem {l : Transitions} {t : Token} (h : argmaxFirst l = some t) :
    t ∈ l.map Prod.fst := by
  cases l with
  | nil => simp [argmaxFirst] at h
  | cons p rest =>
      simp only [argmaxFirst, Option.some.injEq] at h
      subst h
      simp only [List.map_cons]
      rcases maxKeyGo_mem rest p.1 p.2 with h2 | h2
      · rw [h2]; exact List.mem_cons_self _ _
      · exact List.mem_cons_of_mem _ h2

lemma argmaxFirst_of_ne_nil {l : Transitions} (h : l ≠ []) :
    ∃ t, argmaxFirst l = some t := by
  cases l with
  | nil => exact absurd rfl h
  | cons p rest => exact ⟨maxKeyGo p.1 p.2 rest, rfl⟩

lemma predict_eq (a : MarkovChainAnalyzer) (u : String) (s : List Token)
    (h : ¬ s.length < a.order) :
    predict_next_behavior a u s =
      match (getA a.user_patterns u).bind (fun ut => getA ut (pyLastSlice a.order s)) with
      | some probs => argmaxFirst probs
      | none =>
          match getA a.transition_matrix (pyLastSlice a.order s) with
          | some probs => argmaxFirst probs
          | none => none := by
  unfold predict_next_behavior
  rw [if_neg h]
  cases hu : getA a.user_patterns u with
  | none => rfl
  | some ut =>
      cases hc : getA ut (pyLastSlice a.order s) with
      | none => rfl
      | some probs => rfl

/-- Claim C4: `predict_next_behavior` returns `none` when the sequence is
shorter than the order or when the length-`order` suffix context is in
neither the user's table nor the global one; otherwise it returns the
first-maximal next-token of the per-user row whenever the context exists
there, falling back to the global row only on a per-user miss, and the
returned token always lies in the chosen row's next-token set. -/
theorem C4_predict_next_behavior (a : MarkovChainAnalyzer) (u : String)
    (s : List Token) :
    (s.length < a.order → predict_next_behavior a u s = none)
    ∧ (a.order ≤ s.length →
        ((getA a.user_patterns u).bind
            (fun ut => getA ut (pyLastSlice a.order s)) = none →
          getA a.transition_matrix (pyLastSlice a.order s) = none →
          predict_next_behavior a u s = none)
        ∧ (∀ probs,
            (getA a.user_patterns u).bind
              (fun ut => getA ut (pyLastSlice a.order s)) = some probs →
            predict_next_behavior a u s = argmaxFirst probs
            ∧ (probs ≠ [] → ∃ t, predict_next_behavior a u s = some t
                ∧ t ∈ probs.map Prod.fst))
        ∧ ((getA a.user_patterns u).bind
              (fun ut => getA ut (pyLastSlice a.order s)) = none →
            ∀ probs, getA a.transition_matrix (pyLastSlice a.order s) = some probs →
            predict_next_behavior a u s = argmaxFirst probs
            ∧ (probs ≠ [] → ∃ t, predict_next_behavior a u s = some t
                ∧ t ∈ probs.map Prod.fst))) := by
  constructor
  · intro h
    unfold predict_next_behavior
    rw [if_pos h]
  · intro h
    have hnot : ¬ s.length < a.order := not_lt.mpr h
    rw [predict_eq a u s hnot]
    refine ⟨?_, ?_, ?_⟩
    · intro hu hg
      rw [hu, hg]
    · intro probs hu
      rw [hu]
      refine ⟨rfl, fun hne => ?_⟩
      obtain ⟨t, ht⟩ := argmaxFirst_of_ne_nil hne
      exact ⟨t, ht, argmaxFirst_mem ht⟩
    · intro hu probs hg
      rw [hu, hg]
      refine ⟨rfl, fun hne => ?_⟩
      obtain ⟨t, ht⟩ := argmaxFirst_of_ne_nil hne
      exact ⟨t, ht, argmaxFirst_mem ht⟩

/-- Witness for C4: the trained demo analyzer predicts from the per-user row
of context `("view_a","click_a")`. -/
theorem C4_predict_next_behavior_witness :
    predict_next_behavior demoAnalyzer "u1" ["view_a", "click_a"]
        = argmaxFirst [("view_b", 1)]
      ∧ ([("view_b", 1)] ≠ ([] : Transitions) →
          ∃ t, predict_next_behavior demoAnalyzer "u1" ["view_a", "click_a"] = some t
            ∧ t ∈ [("view_b", 1)].map Prod.fst) :=
  ((C4_predict_next_behavior demoAnalyzer "u1" ["view_a", "click_a"]).2
    (by decide)).2.1 [("view_b", 1)] (by decide)

/-! ### Additivity of training (claim C2) -/

lemma headD_append {l l2 : List Token} (d : Token) (h : l ≠ []) :
    (l ++ l2).headD d = l.headD d := by
  cases l with
  | nil => exact absurd rfl h
  | cons x xs => rfl

lemma windows_eq_nil {k : Nat} {s : List Token} (h : s.length ≤ k) :
    windows k s = [] := by
  cases s with
  | nil => rfl
  | cons x xs =>
      unfold windows
      rw [if_neg]
      simpa using h

lemma windows_cons {k : Nat} {x : Token} {xs : List Token} (h : k < xs.length + 1) :
    windows k (x :: xs)
      = ((x :: xs).take k, ((x :: xs).drop k).headD "") :: windows k xs := by
  conv_lhs => unfold windows
  rw [if_pos h]

lemma windows_append (k : Nat) :
    ∀ (A B : List Token), k ≤ A.length →
      windows k (A ++ B) = windows k A ++ windows k (A.drop (A.length - k) ++ B) := by
  intro A
  induction A with
  | nil =>
      intro B h
      have hk : k = 0 := Nat.le_zero.mp h
      subst hk
      simp [windows_eq_nil]
  | cons x A2 ih =>
      intro B h
      by_cases hk : k ≤ A2.length
      · have hguard1 : k < (A2 ++ B).length + 1 := by
          rw [List.length_append]; omega
        have hguard2 : k < A2.length + 1 := Nat.lt_succ_of_le hk
        have hcons : (x :: A2) ++ B = x :: (A2 ++ B) := rfl
        have hlen : k ≤ (x :: A2).length := by simp; omega
        have htake : (x :: (A2 ++ B)).take k = (x :: A2).take k := by
          rw [← hcons, List.take_append_of_le_length hlen]
        have hdropne : (x :: A2).drop k ≠ [] := by
          intro hnil
          have := List.drop_eq_nil_iff.mp hnil
          simp at this
          omega
        have hdrop : ((x :: (A2 ++ B)).drop k).headD "" = ((x :: A2).drop k).headD "" := by
          rw [← hcons, List.drop_append_of_le_length hlen]
          exact headD_append "" hdropne
        have hsub : (x :: A2).length - k = (A2.length - k) + 1 := by
          simp only [List.length_cons]
          omega
        rw [hcons, windows_cons hguard1, windows_cons hguard2, htake, hdrop, ih B hk,
          hsub, List.drop_succ_cons, List.cons_append]
      · have hk2 : k = A2.length + 1 := by
          simp only [List.length_cons] at h
          omega
        have hnil : windows k (x :: A2) = [] := windows_eq_nil (by simp [hk2])
        have hdrop0 : (x :: A2).length - k = 0 := by simp [hk2]
        rw [hnil, hdrop0, List.drop_zero, List.nil_append]

lemma getA_isSome_bumpUser (ps : List (String × TTable)) (u : String) (c : Ctx)
    (t : Token) (uq : String) :
    (getA (bumpUser ps u c t) uq).isSome = (getA ps uq).isSome := by
  induction ps with
  | nil => rfl
  | cons p rest ih =>
      obtain ⟨k, tb⟩ := p
      simp only [bumpUser]
      by_cases hk : k = u
      · rw [if_pos hk]
        simp only [getA]
        by_cases hq : k = uq
        · rw [if_pos hq, if_pos hq]
          rfl
        · rw [if_neg hq, if_neg hq]
      · rw [if_neg hk]
        simp only [getA]
        by_cases hq : k = uq
        · rw [if_pos hq, if_pos hq]
        · rw [if_neg hq, if_neg hq]
          exact ih

lemma foldl_trainStep_patterns_isSome (u : String) (ws : List (Ctx × Token)) :
    ∀ (a : MarkovChainAnalyzer) (uq : String),
      (getA (ws.foldl (trainStep u) a).user_patterns uq).isSome
        = (getA a.user_patterns uq).isSome := by
  induction ws with
  | nil => intro a uq; rfl
  | cons w rest ih =>
      intro a uq
      rw [List.foldl_cons, ih]
      exact getA_isSome_bumpUser a.user_patterns u w.1 w.2 uq

lemma getA_append_of_none {ps : List (String × TTable)} {u : String}
    (x : TTable) (h : getA ps u = none) : getA (ps ++ [(u, x)]) u = some x := by
  induction ps with
  | nil => simp [getA]
  | cons p rest ih =>
      obtain ⟨k, tb⟩ := p
      simp only [getA] at h ⊢
      by_cases hk : k = u
      · rw [if_pos hk] at h; exact absurd h (by simp)
      · rw [if_neg hk] at h ⊢
        exact ih h

lemma ensureUser_isSome (ps : List (String × TTable)) (u : String) :
    (getA (ensureUser ps u) u).isSome := by
  unfold ensureUser
  by_cases h : (getA ps u).isSome
  · rw [if_pos h]; exact h
  · rw [if_neg h]
    have hnone : getA ps u = none := Option.not_isSome_iff_eq_none.mp h
    rw [getA_append_of_none [] hnone]
    rfl

lemma ensureUser_of_isSome {ps : List (String × TTable)} {u : String}
    (h : (getA ps u).isSome) : ensureUser ps u = ps := if_pos h

lemma foldl_trainStep_order (u : String) (ws : List (Ctx × Token)) :
    ∀ a : MarkovChainAnalyzer, (ws.foldl (trainStep u) a).order = a.order := by
  induction ws with
  | nil => intro a; rfl
  | cons w rest ih =>
      intro a
      rw [List.foldl_cons, ih]
      rfl

lemma add_user_behavior_order (a : MarkovChainAnalyzer) (u : String)
    (s : List Token) : (add_user_behavior a u s).order = a.order := by
  unfold add_user_behavior
  by_cases h : s.length < a.order + 1
  · rw [if_pos h]
  · rw [if_neg h, foldl_trainStep_order]

/-- Claim C2 (amended): training is additive once the `order`-token overlap at
the junction is re-sent — for `len(A) ≥ order`, training `A` and then
`A[-order:] ++ B` produces exactly the same analyzer state as training
`A ++ B` once.  (The claim as frozen, without the overlap, is refuted by
`C2_training_additive_counterexample`: training `A` then `B` separately never
counts the transitions that span the junction.) -/
theorem C2_training_additive (a : MarkovChainAnalyzer) (u : String)
    (A B : List Token) (h : a.order ≤ A.length) :
    add_user_behavior (add_user_behavior a u A) u
        (A.drop (A.length - a.order) ++ B)
      = add_user_behavior a u (A ++ B) := by
  have addNoop : ∀ (b : MarkovChainAnalyzer) (s : List Token),
      s.length < b.order + 1 → add_user_behavior b u s = b := by
    intro b s hs
    unfold add_user_behavior
    rw [if_pos hs]
  have addEq : ∀ (b : MarkovChainAnalyzer) (s : List Token),
      ¬ s.length < b.order + 1 →
      add_user_behavior b u s = (windows b.order s).foldl (trainStep u)
        ⟨b.order, b.transition_matrix, b.state_counts, ensureUser b.user_patterns u⟩ := by
    intro b s hs
    unfold add_user_behavior
    rw [if_neg hs]
  by_cases h1 : A.length < a.order + 1
  · have hA : A.length = a.order := le_antisymm (Nat.lt_succ_iff.mp h1) h
    rw [addNoop a A h1, hA, Nat.sub_self, List.drop_zero]
  · have hord : (add_user_behavior a u A).order = a.order := add_user_behavior_order a u A
    have hdroplen : (A.drop (A.length - a.order)).length = a.order := by
      rw [List.length_drop]
      omega
    by_cases hB : B = []
    · subst hB
      rw [List.append_nil, List.append_nil]
      exact addNoop (add_user_behavior a u A) (A.drop (A.length - a.order))
        (by rw [hord, hdroplen]; omega)
    · have hBlen : 1 ≤ B.length := by
        cases B with
        | nil => exact absurd rfl hB
        | cons b bs => simp
      have hg1 : ¬ (A.drop (A.length - a.order) ++ B).length
          < (add_user_behavior a u A).order + 1 := by
        rw [hord, List.length_append, hdroplen]
        omega
      have hg2 : ¬ (A ++ B).length < a.order + 1 := by
        rw [List.length_append]
        omega
      rw [addEq (add_user_behavior a u A) (A.drop (A.length - a.order) ++ B) hg1]
      have hsome : (getA (add_user_behavior a u A).user_patterns u).isSome := by
        rw [addEq a A h1, foldl_trainStep_patterns_isSome]
        exact ensureUser_isSome a.user_patterns u
      have hens : ensureUser (add_user_behavior a u A).user_patterns u
          = (add_user_behavior a u A).user_patterns := ensureUser_of_isSome hsome
      rw [hens, hord]
      have hmk : (⟨(add_user_behavior a u A).order,
          (add_user_behavior a u A).transition_matrix,
          (add_user_behavior a u A).state_counts,
          (add_user_behavior a u A).user_patterns⟩ : MarkovChainAnalyzer)
          = add_user_behavior a u A := rfl
      rw [hord] at hmk
      rw [hmk]
      conv_lhs => rw [addEq a A h1]
      rw [← List.foldl_append, ← windows_append a.order A B h]
      exact (addEq a (A ++ B) hg2).symm

def cexA : MarkovChainAnalyzer := { order := 2 }

/-- Counterexample to C2 as frozen: with `order = 2`, `A = ["a","b"]`
(`len(A) ≥ order`) and `B = ["c"]`, training `A` then `B` trains nothing at
all (both calls are no-ops), while training `A ++ B` records the junction
transition `("a","b") → "c"`. -/
theorem C2_training_additive_counterexample :
    add_user_behavior (add_user_behavior cexA "u" ["a", "b"]) "u" ["c"]
      ≠ add_user_behavior cexA "u" ["a", "b", "c"] := by decide

/-- Witness for C2 at a concrete training pair. -/
theorem C2_training_additive_witness :
    cexA.order ≤ (["a", "b", "c"] : List Token).length
    ∧ add_user_behavior (add_user_behavior cexA "u" ["a", "b", "c"]) "u"
        ((["a", "b", "c"] : List Token).drop
          ((["a", "b", "c"] : List Token).length - cexA.order) ++ ["d"])
      = add_user_behavior cexA "u" (["a", "b", "c"] ++ ["d"]) :=
  ⟨by decide, C2_training_additive cexA "u" ["a", "b", "c"] ["d"] (by decide)⟩

/-! ### Model export / import (claims C7, C8) -/

/-- A context key as it may appear in a snapshot: the in-memory tuple form or
the list form a JSON round trip produces (import converts the latter back,
markov_analyzer.py lines 224/228). -/
inductive CtxKey where
  | tup (l : Ctx)
  | lst (l : Ctx)
  deriving DecidableEq, Repr

/-- The portion of `export_model`'s dict that `import_model` reads; absent
keys are `none`.  The metadata entries (`timestamp`, `model_hash`, `stats`)
are never read back and are not modelled. -/
structure ModelSnapshot where
  order : Option Nat := none
  user_id : Option String := none
  transition_matrix : Option (List (CtxKey × Transitions)) := none
  state_counts : Option (List (Ctx × Nat)) := none
  deriving DecidableEq, Repr

/-- `MarkovChainAnalyzer.export_model` (markov_analyzer.py lines 171-196).
The branch test is Python `if user_id:` — an empty-string user id falls
through to the global branch. -/
def export_model (a : MarkovChainAnalyzer) (user_id : Option String) :
    ModelSnapshot :=
  match user_id with
  | some u =>
      if u ≠ "" then
        match getA a.user_patterns u with
        | some ut =>
            { order := some a.order, user_id := some u,
              transition_matrix := some (ut.map fun p => (CtxKey.tup p.1, p.2)) }
        | none => { order := some a.order }
      else
        { order := some a.order,
          transition_matrix :=
            some (a.transition_matrix.map fun p => (CtxKey.tup p.1, p.2)),
          state_counts := some a.state_counts }
  | none =>
      { order := some a.order,
        transition_matrix :=
          some (a.transition_matrix.map fun p => (CtxKey.tup p.1, p.2)),
        state_counts := some a.state_counts }

/-- Python `tuple(state) if isinstance(state, list) else state`. -/
def restoreKey : CtxKey → Ctx
  | .tup l => l
  | .lst l => l

/-- Python dict assignment `d[k] = v`: overwrite in place or append. -/
def setTable : TTable → Ctx → Transitions → TTable
  | [], k, v => [(k, v)]
  | (k2, v2) :: rest, k, v =>
      if k2 = k then (k2, v) :: rest else (k2, v2) :: setTable rest k v

/-- Python `self.user_patterns[u] = fresh_table`. -/
def setUser : List (String × TTable) → String → TTable → List (String × TTable)
  | [], u, tb => [(u, tb)]
  | (k, tb2) :: rest, u, tb =>
      if k = u then (k, tb) :: rest else (k, tb2) :: setUser rest u tb

/-- `MarkovChainAnalyzer.import_model` (markov_analyzer.py lines 211-228):
`order` is read with `.get("order", 2)` (silent default), the transition data
with a bare `["transition_matrix"]` access, whose `KeyError` is modelled as
`Except.error`.  (The partial mutation Python performs before that raise is
not modelled; no claim inspects the post-raise state.) -/
def import_model (a : MarkovChainAnalyzer) (model_data : ModelSnapshot) :
    Except String MarkovChainAnalyzer :=
  let a2 : MarkovChainAnalyzer := { a with order := model_data.order.getD 2 }
  match model_data.user_id with
  | some u =>
      match model_data.transition_matrix with
      | none => Except.error "KeyError: transition_matrix"
      | some tm =>
          let tbl := tm.foldl (fun tb p => setTable tb (restoreKey p.1) p.2) []
          Except.ok { a2 with user_patterns := setUser a2.user_patterns u tbl }
  | none =>
      match model_data.transition_matrix with
      | none => Except.error "KeyError: transition_matrix"
      | some tm =>
          let tbl := tm.foldl (fun tb p => setTable tb (restoreKey p.1) p.2) []
          Except.ok { a2 with transition_matrix := tbl }

lemma getA_append (l1 l2 : TTable) (k : Ctx) :
    getA (l1 ++ l2) k = match getA l1 k with
      | some v => some v
      | none => getA l2 k := by
  induction l1 with
  | nil => rfl
  | cons p rest ih =>
      obtain ⟨k2, v2⟩ := p
      simp only [List.cons_append, getA]
      by_cases hk : k2 = k
      · rw [if_pos hk, if_pos hk]
      · rw [if_neg hk, if_neg hk]
        exact ih

lemma setTable_of_fresh {tb : TTable} {k : Ctx} (v : Transitions)
    (h : getA tb k = none) : setTable tb k v = tb ++ [(k, v)] := by
  induction tb with
  | nil => rfl
  | cons p rest ih =>
      obtain ⟨k2, v2⟩ := p
      simp only [getA] at h
      simp only [setTable, List.cons_append]
      by_cases hk : k2 = k
      · rw [if_pos hk] at h
        exact absurd h (by simp)
      · rw [if_neg hk] at h
        rw [if_neg hk, ih h]

lemma foldl_set_eq (l : TTable) :
    ∀ acc : TTable, (l.map Prod.fst).Nodup → (∀ p ∈ l, getA acc p.1 = none) →
      l.foldl (fun tb p => setTable tb p.1 p.2) acc = acc ++ l := by
  induction l with
  | nil => intro acc _ _; simp
  | cons p rest ih =>
      intro acc hnodup hfresh
      rw [List.foldl_cons,
        setTable_of_fresh p.2 (hfresh p (List.mem_cons_self p rest))]
      have hnodup2 : (rest.map Prod.fst).Nodup := by
        simp only [List.map_cons, List.nodup_cons] at hnodup
        exact hnodup.2
      have hnotmem : p.1 ∉ rest.map Prod.fst := by
        simp only [List.map_cons, List.nodup_cons] at hnodup
        exact hnodup.1
      have hfresh2 : ∀ q ∈ rest, getA (acc ++ [(p.1, p.2)]) q.1 = none := by
        intro q hq
        rw [getA_append, hfresh q (List.mem_cons_of_mem p hq)]
        simp only [getA]
        rw [if_neg]
        intro hcontra
        exact hnotmem (hcontra ▸ List.mem_map_of_mem Prod.fst hq)
      rw [ih (acc ++ [(p.1, p.2)]) hnodup2 hfresh2]
      simp

lemma restore_fold (l : TTable) (hn : (l.map Prod.fst).Nodup) :
    (l.map fun p => (CtxKey.tup p.1, p.2)).foldl
      (fun tb p => setTable tb (restoreKey p.1) p.2) [] = l := by
  rw [List.foldl_map]
  have hfold := foldl_set_eq l [] hn (by intro p _; rfl)
  simp only [List.nil_append] at hfold
  calc l.foldl (fun tb p => setTable tb (restoreKey (CtxKey.tup p.1)) p.2) []
      = l.foldl (fun tb p => setTable tb p.1 p.2) [] := rfl
    _ = l := hfold

lemma getA_setUser (ps : List (String × TTable)) (u : String) (tb : TTable) :
    getA (setUser ps u tb) u = some tb := by
  induction ps with
  | nil => simp [setUser, getA]
  | cons p rest ih =>
      obtain ⟨k, tb2⟩ := p
      simp only [setUser]
      by_cases hk : k = u
      · rw [if_pos hk]
        simp [getA, hk]
      · rw [if_neg hk]
        simp only [getA]
        rw [if_neg hk]
        exact ih

/-- Claim C7 (amended): for a user with a NON-EMPTY id present in
`user_patterns`, and for the global scope, `import_model ∘ export_model`
reproduces the transition table — identical contexts (tuple keys restored)
with identical counts — into any target analyzer; the snapshot's `order`
is also restored.  (As frozen the claim fails for the empty-string user id:
`export_model("")` silently exports the global scope, see
`C7_model_roundtrip_counterexample`.) -/
theorem C7_model_roundtrip (a c : MarkovChainAnalyzer) (u : String) (ut : TTable)
    (hglobal : (a.transition_matrix.map Prod.fst).Nodup)
    (hu : u ≠ "")
    (huser : getA a.user_patterns u = some ut)
    (hnodup : (ut.map Prod.fst).Nodup) :
    (∃ r, import_model c (export_model a none) = Except.ok r
        ∧ r.transition_matrix = a.transition_matrix ∧ r.order = a.order)
    ∧ (∃ r, import_model c (export_model a (some u)) = Except.ok r
        ∧ getA r.user_patterns u = some ut ∧ r.order = a.order) := by
  constructor
  · simp only [export_model, import_model]
    refine ⟨_, rfl, ?_, rfl⟩
    exact restore_fold a.transition_matrix hglobal
  · have hexp : export_model a (some u) =
        { order := some a.order, user_id := some u,
          transition_matrix := some (ut.map fun p => (CtxKey.tup p.1, p.2)) } := by
      simp only [export_model]
      rw [if_pos hu, huser]
    rw [hexp]
    simp only [import_model]
    refine ⟨_, rfl, ?_, rfl⟩
    rw [restore_fold ut hnodup]
    exact getA_setUser c.user_patterns u ut

/-- The demo analyzer's per-user table for `"u1"`, spelled out. -/
def demoUserTable : TTable :=
  [(["view_a", "click_a"], [("view_b", 1)]),
   (["click_a", "view_b"], [("click_b", 1)]),
   (["view_b", "click_b"], [("purchase_b", 1)])]

/-- Witness for C7 on the concretely trained demo analyzer. -/
theorem C7_model_roundtrip_witness :
    (∃ r, import_model ({ order := 2 } : MarkovChainAnalyzer)
          (export_model demoAnalyzer none) = Except.ok r
        ∧ r.transition_matrix = demoAnalyzer.transition_matrix
        ∧ r.order = demoAnalyzer.order)
    ∧ (∃ r, import_model ({ order := 2 } : MarkovChainAnalyzer)
          (export_model demoAnalyzer (some "u1")) = Except.ok r
        ∧ getA r.user_patterns "u1" = some demoUserTable
        ∧ r.order = demoAnalyzer.order) :=
  C7_model_roundtrip demoAnalyzer { order := 2 } "u1" demoUserTable
    (by decide) (by decide) (by decide) (by decide)

/-- An analyzer whose `user_patterns` contains the empty-string user id. -/
def cexRound : MarkovChainAnalyzer :=
  { order := 2, user_patterns := [("", [(["x"], [("y", 1)])])] }

/-- Counterexample to C7 as frozen: user `""` is present in `user_patterns`,
yet `import_model (export_model (some ""))` into a fresh analyzer does not
reproduce its per-user table — the export silently took the global branch. -/
theorem C7_model_roundtrip_counterexample :
    getA cexRound.user_patterns "" = some [(["x"], [("y", 1)])]
    ∧ import_model ({ order := 2 } : MarkovChainAnalyzer)
        (export_model cexRound (some ""))
      = Except.ok ({ order := 2 } : MarkovChainAnalyzer)
    ∧ getA ({ order := 2 } : MarkovChainAnalyzer).user_patterns "" = none :=
  ⟨rfl, rfl, rfl⟩

/-- Claim C8 (amended): `import_model` surfaces a hard failure (`KeyError`)
exactly when the snapshot's transition data is missing; an absent `order`
field is NOT a hard failure — it is silently defaulted to 2 — and a
mismatched `order` is silently adopted.  (The claim as frozen, which demands
a hard failure for an absent/mismatched order too, is refuted by
`C8_import_counterexample`.) -/
theorem C8_import_hard_failure (c : MarkovChainAnalyzer) (m : ModelSnapshot) :
    (m.transition_matrix = none →
      import_model c m = Except.error "KeyError: transition_matrix")
    ∧ (∀ tm, m.transition_matrix = some tm →
        ∃ r, import_model c m = Except.ok r ∧ r.order = m.order.getD 2) := by
  constructor
  · intro hnone
    unfold import_model
    rw [hnone]
    cases m.user_id with
    | none => rfl
    | some u => rfl
  · intro tm htm
    unfold import_model
    rw [htm]
    cases m.user_id with
    | none => exact ⟨_, rfl, rfl⟩
    | some u => exact ⟨_, rfl, rfl⟩

/-- A snapshot with no `order` field, a list-form context, and transition
data present. -/
def cexSnap : ModelSnapshot :=
  { transition_matrix := some [(CtxKey.lst ["a"], [("b", 1)])] }

/-- Counterexample to C8 as frozen: a snapshot whose `order` field is absent
(and does not match the target analyzer's order 5) imports successfully —
no hard failure — with the order silently coerced to the default 2. -/
theorem C8_import_counterexample :
    cexSnap.order = none
    ∧ import_model ({ order := 5 } : MarkovChainAnalyzer) cexSnap
        = Except.ok { order := 2, transition_matrix := [(["a"], [("b", 1)])] } :=
  ⟨rfl, rfl⟩

/-- Witness for C8: importing an empty snapshot raises the `KeyError`. -/
theorem C8_import_hard_failure_witness :
    import_model ({ order := 2 } : MarkovChainAnalyzer) ({} : ModelSnapshot)
      = Except.error "KeyError: transition_matrix" :=
  (C8_import_hard_failure { order := 2 } {}).1 rfl

/-! ### EnhancedMarkovChainAnalyzer: hybrid prediction (claims C3, C5, C10) -/

/-- State of `EnhancedMarkovChainAnalyzer` (enhanced_markov_demo.py,
`__init__`).  The `analyzers` dict is keyed by order and populated for
`1..max_order`; it is modelled as a total function, the only keys ever read
being `1..max_order`. -/
structure EnhancedMarkovChainAnalyzer where
  max_order : Nat
  analyzers : Nat → MarkovChainAnalyzer
  user_demographics : List (String × List (String × String)) := []
  item_categories : List (String × String) := []
  category_preferences : List (String × List (String × ℚ)) := []

/-- Python `predictions[t] += v` on a `defaultdict(float)`. -/
def addPred : List (Token × ℚ) → Token → ℚ → List (Token × ℚ)
  | [], t, v => [(t, v)]
  | (k, c) :: rest, t, v =>
      if k = t then (k, c + v) :: rest else (k, c) :: addPred rest t v

/-- One inner loop of `hybrid_prediction`: for every candidate of `row`,
`predictions[next] += c * prob * w` (enhanced_markov_demo.py lines 178/185). -/
def addRow (c w : ℚ) (row : List (Token × ℚ)) (acc : List (Token × ℚ)) :
    List (Token × ℚ) :=
  row.foldl (fun ac q => addPred ac q.1 (c * q.2 * w)) acc

/-- One iteration of the `for order in range(1, max_order + 1)` loop of
`hybrid_prediction` (enhanced_markov_demo.py lines 165-186). -/
def accumOrder (e : EnhancedMarkovChainAnalyzer) (user_id : String)
    (recent_behaviors : List Token) (alpha_global : ℚ)
    (acc : List (Token × ℚ)) (order : Nat) : List (Token × ℚ) :=
  if recent_behaviors.length < order then acc
  else
    let analyzer := e.analyzers order
    let global_probs := calculate_transition_probabilities analyzer none
    let current_state := pyLastSlice order recent_behaviors
    let acc2 :=
      match getA global_probs current_state with
      | some row => addRow alpha_global (1 / (order : ℚ)) row acc
      | none => acc
    let user_probs := calculate_transition_probabilities analyzer (some user_id)
    match getA user_probs current_state with
    | some row => addRow (1 - alpha_global) (1 / (order : ℚ)) row acc2
    | none => acc2

/-- The accumulator of `hybrid_prediction` after all orders, before
normalization. -/
def rawPredictions (e : EnhancedMarkovChainAnalyzer) (user_id : String)
    (recent_behaviors : List Token) (alpha_global : ℚ) : List (Token × ℚ) :=
  (List.range e.max_order).foldl
    (fun acc i => accumOrder e user_id recent_behaviors alpha_global acc (i + 1)) []

/-- Stable insertion for Python `sorted(..., key=lambda x: x[1], reverse=True)`:
an element is placed before the first strictly smaller value. -/
def insertDesc (p : Token × ℚ) : List (Token × ℚ) → List (Token × ℚ)
  | [] => [p]
  | q :: rest => if q.2 < p.2 then p :: q :: rest else q :: insertDesc p rest

def sortDesc (l : List (Token × ℚ)) : List (Token × ℚ) :=
  l.foldl (fun acc p => insertDesc p acc) []

/-- `EnhancedMarkovChainAnalyzer.hybrid_prediction`
(enhanced_markov_demo.py lines 159-193). -/
def hybrid_prediction (e : EnhancedMarkovChainAnalyzer) (user_id : String)
    (recent_behaviors : List Token) (alpha_global : ℚ) : List (Token × ℚ) :=
  let predictions := rawPredictions e user_id recent_behaviors alpha_global
  let total_prob := (predictions.map Prod.snd).sum
  let normalized :=
    if 0 < total_prob then predictions.map fun p => (p.1, p.2 / total_prob)
    else predictions
  sortDesc normalized

lemma insertDesc_perm (p : Token × ℚ) (l : List (Token × ℚ)) :
    (insertDesc p l).Perm (p :: l) := by
  induction l with
  | nil => exact List.Perm.refl _
  | cons q rest ih =>
      simp only [insertDesc]
      by_cases hq : q.2 < p.2
      · rw [if_pos hq]
      · rw [if_neg hq]
        exact (ih.cons q).trans (List.Perm.swap p q rest)

lemma sortDesc_foldl_perm (l : List (Token × ℚ)) :
    ∀ acc, (l.foldl (fun acc p => insertDesc p acc) acc).Perm (acc ++ l) := by
  induction l with
  | nil => intro acc; simp
  | cons p rest ih =>
      intro acc
      rw [List.foldl_cons]
      refine (ih (insertDesc p acc)).trans ?_
      refine (List.Perm.append_right rest (insertDesc_perm p acc)).trans ?_
      exact List.perm_middle.symm

lemma sortDesc_perm (l : List (Token × ℚ)) : (sortDesc l).Perm l := by
  have := sortDesc_foldl_perm l []
  simpa [sortDesc] using this

lemma sum_snd_perm {l1 l2 : List (Token × ℚ)} (h : l1.Perm l2) :
    (l1.map Prod.snd).sum = (l2.map Prod.snd).sum :=
  (h.map Prod.snd).sum_eq

lemma getA_mem {α β : Type} [DecidableEq α] {l : List (α × β)} {k : α} {v : β}
    (h : getA l k = some v) : (k, v) ∈ l := by
  induction l with
  | nil => simp [getA] at h
  | cons p rest ih =>
      obtain ⟨k2, v2⟩ := p
      simp only [getA] at h
      by_cases hk : k2 = k
      · rw [if_pos hk] at h
        subst hk
        obtain rfl : v2 = v := by simpa using h
        exact List.mem_cons_self _ _
      · rw [if_neg hk] at h
        exact List.mem_cons_of_mem _ (ih h)

lemma calc_prob_nonneg {a : MarkovChainAnalyzer} {uid : Option String}
    {ctx : Ctx} {row : List (Token × ℚ)}
    (h : getA (calculate_transition_probabilities a uid) ctx = some row) :
    ∀ q ∈ row, 0 ≤ q.2 := by
  have hmem := getA_mem h
  unfold calculate_transition_probabilities at hmem
  rw [List.mem_filterMap] at hmem
  obtain ⟨p, _, hmap⟩ := hmem
  rw [Option.map_eq_some'] at hmap
  obtain ⟨r, hr, heq⟩ := hmap
  unfold calcRow at hr
  by_cases hpos : 0 < transitionsTotal p.2
  · rw [if_pos hpos] at hr
    have hrow : row = p.2.map fun q => (q.1, (q.2 : ℚ) / (transitionsTotal p.2 : ℚ)) := by
      cases heq
      exact (Option.some.injEq _ _ ▸ hr).symm
    subst hrow
    intro q hq
    rw [List.mem_map] at hq
    obtain ⟨q0, _, hq0⟩ := hq
    subst hq0
    positivity
  · rw [if_neg hpos] at hr
    exact absurd hr (by simp)

lemma addPred_nonneg {acc : List (Token × ℚ)} {t : Token} {v : ℚ}
    (hacc : ∀ q ∈ acc, 0 ≤ q.2) (hv : 0 ≤ v) :
    ∀ q ∈ addPred acc t v, 0 ≤ q.2 := by
  induction acc with
  | nil =>
      intro q hq
      simp only [addPred, List.mem_singleton] at hq
      subst hq
      exact hv
  | cons p rest ih =>
      obtain ⟨k, c⟩ := p
      intro q hq
      simp only [addPred] at hq
      by_cases hk : k = t
      · rw [if_pos hk] at hq
        rcases List.mem_cons.mp hq with hq | hq
        · subst hq
          have hc : (0 : ℚ) ≤ c := hacc (k, c) (List.mem_cons_self _ _)
          simpa using add_nonneg hc hv
        · exact hacc q (List.mem_cons_of_mem _ hq)
      · rw [if_neg hk] at hq
        rcases List.mem_cons.mp hq with hq | hq
        · subst hq
          exact hacc (k, c) (List.mem_cons_self _ _)
        · exact ih (fun r hr => hacc r (List.mem_cons_of_mem _ hr)) q hq

lemma addRow_nonneg {c w : ℚ} (hc : 0 ≤ c) (hw : 0 ≤ w)
    (row : List (Token × ℚ)) (hrow : ∀ q ∈ row, 0 ≤ q.2) :
    ∀ {acc : List (Token × ℚ)}, (∀ q ∈ acc, 0 ≤ q.2) →
      ∀ q ∈ addRow c w row acc, 0 ≤ q.2 := by
  induction row with
  | nil => intro acc hacc; exact hacc
  | cons p rest ih =>
      intro acc hacc
      have hp : 0 ≤ c * p.2 * w :=
        mul_nonneg (mul_nonneg hc (hrow p (List.mem_cons_self _ _))) hw
      exact ih (fun q hq => hrow q (List.mem_cons_of_mem _ hq))
        (addPred_nonneg hacc hp)

lemma accumOrder_nonneg {e : EnhancedMarkovChainAnalyzer} {u : String}
    {recent : List Token} {alpha : ℚ} (h0 : 0 ≤ alpha) (h1 : alpha ≤ 1)
    {acc : List (Token × ℚ)} (hacc : ∀ q ∈ acc, 0 ≤ q.2) (k : Nat) :
    ∀ q ∈ accumOrder e u recent alpha acc k, 0 ≤ q.2 := by
  unfold accumOrder
  by_cases hlen : recent.length < k
  · rw [if_pos hlen]; exact hacc
  · rw [if_neg hlen]
    have hw : (0 : ℚ) ≤ 1 / (k : ℚ) := by positivity
    have hstep : ∀ q ∈
        (match getA (calculate_transition_probabilities (e.analyzers k) none)
            (pyLastSlice k recent) with
          | some row => addRow alpha (1 / (k : ℚ)) row acc
          | none => acc), 0 ≤ q.2 := by
      cases hg : getA (calculate_transition_probabilities (e.analyzers k) none)
          (pyLastSlice k recent) with
      | none => exact hacc
      | some row => exact addRow_nonneg h0 hw row (calc_prob_nonneg hg) hacc
    cases hu : getA (calculate_transition_probabilities (e.analyzers k) (some u))
        (pyLastSlice k recent) with
    | none => simpa [hu] using hstep
    | some row =>
        simp only [hu]
        exact addRow_nonneg (by linarith) hw row (calc_prob_nonneg hu) hstep

lemma foldl_accum_nonneg {e : EnhancedMarkovChainAnalyzer} {u : String}
    {recent : List Token} {alpha : ℚ} (h0 : 0 ≤ alpha) (h1 : alpha ≤ 1) :
    ∀ (l : List Nat) (acc : List (Token × ℚ)), (∀ q ∈ acc, 0 ≤ q.2) →
      ∀ q ∈ l.foldl (fun acc i => accumOrder e u recent alpha acc (i + 1)) acc,
        0 ≤ q.2 := by
  intro l
  induction l with
  | nil => intro acc hacc q hq; exact hacc q hq
  | cons i rest ih =>
      intro acc hacc
      rw [List.foldl_cons]
      exact ih _ (accumOrder_nonneg h0 h1 hacc (i + 1))

lemma rawPredictions_nonneg {e : EnhancedMarkovChainAnalyzer} {u : String}
    {recent : List Token} {alpha : ℚ} (h0 : 0 ≤ alpha) (h1 : alpha ≤ 1) :
    ∀ q ∈ rawPredictions e u recent alpha, 0 ≤ q.2 := by
  unfold rawPredictions
  exact foldl_accum_nonneg h0 h1 (List.range e.max_order) [] (by simp)

lemma sum_map_div_q (l : List (Token × ℚ)) (t : ℚ) :
    ((l.map fun p => (p.1, p.2 / t)).map Prod.snd).sum
      = (l.map Prod.snd).sum / t := by
  induction l with
  | nil => simp
  | cons p rest ih =>
      simp only [List.map_cons, List.sum_cons, ih]
      ring

lemma sum_zero_of_nonneg : ∀ l : List ℚ, (∀ x ∈ l, 0 ≤ x) → l.sum = 0 →
    ∀ x ∈ l, x = 0 := by
  intro l
  induction l with
  | nil => intro _ _ x hx; simp at hx
  | cons y rest ih =>
      intro hnn hsum x hx
      have hy : 0 ≤ y := hnn y (List.mem_cons_self _ _)
      have hrest : 0 ≤ rest.sum :=
        List.sum_nonneg fun z hz => hnn z (List.mem_cons_of_mem _ hz)
      rw [List.sum_cons] at hsum
      have hy0 : y = 0 := by linarith
      have hrest0 : rest.sum = 0 := by linarith
      rcases List.mem_cons.mp hx with hx | hx
      · rw [hx, hy0]
      · exact ih (fun z hz => hnn z (List.mem_cons_of_mem _ hz)) hrest0 x hx

/-- Claim C3 (amended): for `alpha_global ∈ [0,1]` the hybrid prediction
either sums to exactly 1 (whenever any positive mass was accumulated) or
every returned value is 0 — in the latter case the mapping is returned
un-normalized and may be NON-empty.  (As frozen — "sums to 1 or is empty" —
the claim fails at the endpoints: at `alpha_global = 0` a context present
only globally deposits `0.0`-valued entries, normalization is skipped, and a
non-empty all-zero mapping is returned; see
`C3_hybrid_normalized_counterexample`.) -/
theorem C3_hybrid_normalized (e : EnhancedMarkovChainAnalyzer) (u : String)
    (recent : List Token) (alpha : ℚ) (h0 : 0 ≤ alpha) (h1 : alpha ≤ 1) :
    ((hybrid_prediction e u recent alpha).map Prod.snd).sum = 1
    ∨ ∀ q ∈ hybrid_prediction e u recent alpha, q.2 = 0 := by
  have hnn : ∀ q ∈ rawPredictions e u recent alpha, 0 ≤ q.2 :=
    rawPredictions_nonneg h0 h1
  by_cases hpos : 0 < ((rawPredictions e u recent alpha).map Prod.snd).sum
  · left
    simp only [hybrid_prediction]
    rw [if_pos hpos, sum_snd_perm (sortDesc_perm _), sum_map_div_q]
    exact div_self (ne_of_gt hpos)
  · right
    intro q hq
    simp only [hybrid_prediction] at hq
    rw [if_neg hpos] at hq
    have hq2 : q ∈ rawPredictions e u recent alpha :=
      (sortDesc_perm _).mem_iff.mp hq
    have hsum0 : ((rawPredictions e u recent alpha).map Prod.snd).sum = 0 := by
      refine le_antisymm (not_lt.mp hpos) (List.sum_nonneg ?_)
      intro x hx
      obtain ⟨p, hp, rfl⟩ := List.mem_map.mp hx
      exact hnn p hp
    refine sum_zero_of_nonneg _ ?_ hsum0 q.2 (List.mem_map_of_mem Prod.snd hq2)
    intro x hx
    obtain ⟨p, hp, rfl⟩ := List.mem_map.mp hx
    exact hnn p hp

/-- An order-1 analyzer where user `"v"` trained `["a","b"]` and user `"u"`
trained `["c","d"]`; context `("a",)` is global-only for `"u"`. -/
def trained1 : MarkovChainAnalyzer :=
  add_user_behavior (add_user_behavior { order := 1 } "v" ["a", "b"]) "u" ["c", "d"]

/-- A max-order-1 enhanced analyzer over `trained1`. -/
def e0 : EnhancedMarkovChainAnalyzer :=
  { max_order := 1, analyzers := fun _ => trained1 }

/-- Witness for C3 at a concretely trained state and `alpha_global = 1/2`. -/
theorem C3_hybrid_normalized_witness :
    ((hybrid_prediction e0 "u" ["c"] (1 / 2)).map Prod.snd).sum = 1
    ∨ ∀ q ∈ hybrid_prediction e0 "u" ["c"] (1 / 2), q.2 = 0 :=
  C3_hybrid_normalized e0 "u" ["c"] (1 / 2) (by norm_num) (by norm_num)

lemma rangeOne : List.range 1 = [0] := by decide

/-- Counterexample to C3 as frozen: at `alpha_global = 0` (inside `[0,1]`),
user `"u"` is trained but context `("a",)` exists only globally, so the
returned mapping is the non-empty all-zero `{"b": 0}` — neither summing to 1
nor empty. -/
theorem C3_hybrid_normalized_counterexample :
    ¬ (((hybrid_prediction e0 "u" ["a"] 0).map Prod.snd).sum = 1
        ∨ hybrid_prediction e0 "u" ["a"] 0 = []) := by
  have hval : hybrid_prediction e0 "u" ["a"] 0 = [("b", 0)] := by
    simp [hybrid_prediction, rawPredictions, accumOrder, addRow, addPred, sortDesc,
      insertDesc, calculate_transition_probabilities, calcRow, transitionsTotal,
      getA, pyLastSlice, trained1, e0, add_user_behavior, windows, trainStep,
      bumpUser, bumpTable, bumpT, bumpCount, ensureUser, rangeOne]
  rw [hval]
  simp

/-! ### Category-aware prediction (claim C5) -/

/-- Python `str.split(sep)` for a one-character separator, on the character
list: empty segments are preserved (`"".split("_") == [""]`,
`"a__b".split("_") == ["a","","b"]`), as in CPython. -/
def splitChar (sep : Char) : List Char → List (List Char)
  | [] => [[]]
  | c :: rest =>
      if c = sep then [] :: splitChar sep rest
      else
        match splitChar sep rest with
        | [] => [[c]]
        | seg :: segs => (c :: seg) :: segs

/-- Python `s.split('_')` (enhanced_markov_demo.py line 207). -/
def pySplit (s : String) (sep : Char) : List String :=
  (splitChar sep s.data).map fun cs => String.mk cs

/-- The adjusted (pre-normalization) accumulator of
`category_aware_prediction` (enhanced_markov_demo.py lines 204-211): each
base candidate splitting into at least 3 `_`-segments keeps
`prob * preferences.get(parts[2], 1.0)`; the others are dropped. -/
def category_adjusted (e : EnhancedMarkovChainAnalyzer) (user_id : String)
    (recent_behaviors : List Token) : List (Token × ℚ) :=
  let base_predictions := hybrid_prediction e user_id recent_behaviors (3 / 10)
  let preferences := (getA e.category_preferences user_id).getD []
  base_predictions.filterMap fun p =>
    let parts := pySplit p.1 '_'
    if 3 ≤ parts.length then
      some (p.1, p.2 * ((getA preferences ((parts.get? 2).getD "")).getD 1))
    else none

/-- `EnhancedMarkovChainAnalyzer.category_aware_prediction`
(enhanced_markov_demo.py lines 195-219). -/
def category_aware_prediction (e : EnhancedMarkovChainAnalyzer)
    (user_id : String) (recent_behaviors : List Token) : List (Token × ℚ) :=
  let adjusted_predictions := category_adjusted e user_id recent_behaviors
  let total_prob := (adjusted_predictions.map Prod.snd).sum
  if 0 < total_prob then
    adjusted_predictions.map fun p => (p.1, p.2 / total_prob)
  else adjusted_predictions

lemma mem_category_adjusted {e : EnhancedMarkovChainAnalyzer} {u : String}
    {recent : List Token} {t : Token} {v : ℚ}
    (h : (t, v) ∈ category_adjusted e u recent) :
    ∃ p, (t, p) ∈ hybrid_prediction e u recent (3 / 10)
      ∧ 3 ≤ (pySplit t '_').length := by
  simp only [category_adjusted, List.mem_filterMap] at h
  obtain ⟨q, hq, hfn⟩ := h
  by_cases hc : 3 ≤ (pySplit q.1 '_').length
  · rw [if_pos hc] at hfn
    have h1 : q.1 = t := (Prod.mk.injEq _ _ _ _).mp (Option.some.inj hfn) |>.1
    subst h1
    exact ⟨q.2, hq, hc⟩
  · rw [if_neg hc] at hfn
    exact absurd hfn (by simp)

lemma mem_category_adjusted_of {e : EnhancedMarkovChainAnalyzer} {u : String}
    {recent : List Token} {t : Token} {p : ℚ}
    (h : (t, p) ∈ hybrid_prediction e u recent (3 / 10))
    (hc : 3 ≤ (pySplit t '_').length) :
    ∃ v, (t, v) ∈ category_adjusted e u recent := by
  refine ⟨p * ((getA ((getA e.category_preferences u).getD [])
    (((pySplit t '_').get? 2).getD "")).getD 1), ?_⟩
  simp only [category_adjusted, List.mem_filterMap]
  exact ⟨(t, p), h, by rw [if_pos hc]⟩

/-- Claim C5 (amended): `category_aware_prediction` keeps exactly the hybrid
candidates whose token splits into at least 3 `_`-segments, re-weighted by
the user's stored preference for the third segment (default 1), and
re-normalizes to sum 1 whenever the adjusted total is positive; when every
remaining value is 0 — e.g. under a stored preference weight of 0 — the
values are returned un-normalized, so they do NOT sum to 1 (see
`C5_category_aware_counterexample`); the base hybrid result itself is a
separate value and is not modified. -/
theorem C5_category_aware (e : EnhancedMarkovChainAnalyzer) (u : String)
    (recent : List Token) :
    (∀ t v, (t, v) ∈ category_aware_prediction e u recent →
        ∃ p, (t, p) ∈ hybrid_prediction e u recent (3 / 10)
          ∧ 3 ≤ (pySplit t '_').length)
    ∧ (∀ t p, (t, p) ∈ hybrid_prediction e u recent (3 / 10) →
        3 ≤ (pySplit t '_').length →
        ∃ v, (t, v) ∈ category_aware_prediction e u recent)
    ∧ (0 < ((category_adjusted e u recent).map Prod.snd).sum →
        ((category_aware_prediction e u recent).map Prod.snd).sum = 1) := by
  refine ⟨?_, ?_, ?_⟩
  · intro t v h
    simp only [category_aware_prediction] at h
    by_cases hpos : 0 < ((category_adjusted e u recent).map Prod.snd).sum
    · rw [if_pos hpos] at h
      rw [List.mem_map] at h
      obtain ⟨q, hq, hval⟩ := h
      have h1 : q.1 = t := (Prod.mk.injEq _ _ _ _).mp hval |>.1
      subst h1
      exact mem_category_adjusted (by simpa using hq)
    · rw [if_neg hpos] at h
      exact mem_category_adjusted h
  · intro t p h hc
    obtain ⟨v, hv⟩ := mem_category_adjusted_of h hc
    simp only [category_aware_prediction]
    by_cases hpos : 0 < ((category_adjusted e u recent).map Prod.snd).sum
    · rw [if_pos hpos]
      exact ⟨v / ((category_adjusted e u recent).map Prod.snd).sum,
        List.mem_map_of_mem _ hv⟩
    · rw [if_neg hpos]
      exact ⟨v, hv⟩
  · intro hpos
    simp only [category_aware_prediction]
    rw [if_pos hpos, sum_map_div_q]
    exact div_self (ne_of_gt hpos)

/-- An order-1 analyzer trained for user `"u"` with one
`TYPE_item_category`-shaped transition. -/
def trainedE : MarkovChainAnalyzer :=
  add_user_behavior { order := 1 } "u"
    ["VIEW_p_electronics", "CLICK_p_electronics"]

/-- Enhanced analyzer whose user `"u"` stores preference weight 0 for
`electronics`. -/
def e1 : EnhancedMarkovChainAnalyzer :=
  { max_order := 1, analyzers := fun _ => trainedE,
    category_preferences := [("u", [("electronics", 0)])] }

/-- Enhanced analyzer whose user `"u"` stores preference weight 2 for
`electronics`. -/
def e2 : EnhancedMarkovChainAnalyzer :=
  { max_order := 1, analyzers := fun _ => trainedE,
    category_preferences := [("u", [("electronics", 2)])] }

lemma hybrid_e1_eval :
    hybrid_prediction e1 "u" ["VIEW_p_electronics"] (3 / 10)
      = [("CLICK_p_electronics", 1)] := by
  simp [hybrid_prediction, rawPredictions, accumOrder, addRow, addPred, sortDesc,
    insertDesc, calculate_transition_probabilities, calcRow, transitionsTotal,
    getA, pyLastSlice, trainedE, e1, add_user_behavior, windows, trainStep,
    bumpUser, bumpTable, bumpT, bumpCount, ensureUser, rangeOne]

lemma hybrid_e2_eval :
    hybrid_prediction e2 "u" ["VIEW_p_electronics"] (3 / 10)
      = [("CLICK_p_electronics", 1)] := by
  simp [hybrid_prediction, rawPredictions, accumOrder, addRow, addPred, sortDesc,
    insertDesc, calculate_transition_probabilities, calcRow, transitionsTotal,
    getA, pyLastSlice, trainedE, e2, add_user_behavior, windows, trainStep,
    bumpUser, bumpTable, bumpT, bumpCount, ensureUser, rangeOne]

lemma splitClick :
    pySplit "CLICK_p_electronics" '_' = ["CLICK", "p", "electronics"] := by decide

lemma adjusted_e1_eval :
    category_adjusted e1 "u" ["VIEW_p_electronics"]
      = [("CLICK_p_electronics", 0)] := by
  simp only [category_adjusted, hybrid_e1_eval]
  simp [splitClick, getA, e1]

lemma adjusted_e2_eval :
    category_adjusted e2 "u" ["VIEW_p_electronics"]
      = [("CLICK_p_electronics", 2)] := by
  simp only [category_adjusted, hybrid_e2_eval]
  simp [splitClick, getA, e2]

/-- Counterexample to C5 as frozen: with a stored preference weight of 0 the
remaining candidate survives with value 0, the re-normalization is skipped,
and the returned non-empty mapping sums to 0, not 1. -/
theorem C5_category_aware_counterexample :
    category_aware_prediction e1 "u" ["VIEW_p_electronics"] ≠ []
    ∧ ((category_aware_prediction e1 "u" ["VIEW_p_electronics"]).map
        Prod.snd).sum ≠ 1 := by
  have hval : category_aware_prediction e1 "u" ["VIEW_p_electronics"]
      = [("CLICK_p_electronics", 0)] := by
    simp only [category_aware_prediction, adjusted_e1_eval]
    simp
  rw [hval]
  simp

/-- Witness for C5: with a positive stored weight the adjusted total is
positive and the re-normalized values sum to 1. -/
theorem C5_category_aware_witness :
    ((category_aware_prediction e2 "u" ["VIEW_p_electronics"]).map
      Prod.snd).sum = 1 :=
  (C5_category_aware e2 "u" ["VIEW_p_electronics"]).2.2
    (by rw [adjusted_e2_eval]; norm_num)

/-! ### Unknown-user fallback (claim C10) -/

lemma addPred_addPred (ac : List (Token × ℚ)) (t : Token) (v v2 : ℚ) :
    addPred (addPred ac t v) t v2 = addPred ac t (v + v2) := by
  induction ac with
  | nil => simp [addPred, add_assoc]
  | cons p rest ih =>
      obtain ⟨k, c⟩ := p
      simp only [addPred]
      by_cases hk : k = t
      · rw [if_pos hk]
        simp only [addPred, if_pos hk]
        rw [add_assoc]
      · rw [if_neg hk]
        simp only [addPred, if_neg hk]
        rw [ih]

lemma keys_addPred_self (ac : List (Token × ℚ)) (t : Token) (v : ℚ) :
    t ∈ (addPred ac t v).map Prod.fst := by
  induction ac with
  | nil => simp [addPred]
  | cons p rest ih =>
      obtain ⟨k, c⟩ := p
      simp only [addPred]
      by_cases hk : k = t
      · rw [if_pos hk]
        simp [hk]
      · rw [if_neg hk]
        simp only [List.map_cons]
        exact List.mem_cons_of_mem _ ih

lemma keys_addPred_mono (ac : List (Token × ℚ)) (t : Token) (v : ℚ) {t2 : Token}
    (h : t2 ∈ ac.map Prod.fst) : t2 ∈ (addPred ac t v).map Prod.fst := by
  induction ac with
  | nil => simp at h
  | cons p rest ih =>
      obtain ⟨k, c⟩ := p
      simp only [List.map_cons, List.mem_cons] at h
      simp only [addPred]
      by_cases hk : k = t
      · rw [if_pos hk]
        simp only [List.map_cons, List.mem_cons]
        exact h
      · rw [if_neg hk]
        simp only [List.map_cons, List.mem_cons]
        rcases h with h | h
        · exact Or.inl h
        · exact Or.inr (ih h)

lemma addPred_comm (ac : List (Token × ℚ)) (t t2 : Token) (v v2 : ℚ)
    (h : t ∈ ac.map Prod.fst) :
    addPred (addPred ac t2 v2) t v = addPred (addPred ac t v) t2 v2 := by
  by_cases htt : t = t2
  · subst htt
    rw [addPred_addPred, addPred_addPred, add_comm]
  · induction ac with
    | nil => simp at h
    | cons p rest ih =>
        obtain ⟨k, c⟩ := p
        simp only [List.map_cons, List.mem_cons] at h
        by_cases hk2 : k = t2
        · have hkt : ¬ k = t := by
            intro hcontra
            exact htt (hcontra ▸ hk2.symm ▸ rfl)
          simp only [addPred, if_pos hk2, if_neg hkt]
        · by_cases hkt : k = t
          · simp only [addPred, if_neg hk2, if_pos hkt]
          · have h2 : t ∈ rest.map Prod.fst := by
              rcases h with h | h
              · exact absurd h.symm hkt
              · exact h
            simp only [addPred, if_neg hk2, if_neg hkt]
            rw [ih h2]

lemma addPred_foldl (row : List (Token × ℚ)) (f : Token × ℚ → ℚ) :
    ∀ (ac : List (Token × ℚ)) (t : Token) (v : ℚ), t ∈ ac.map Prod.fst →
      addPred (row.foldl (fun a q => addPred a q.1 (f q)) ac) t v
        = row.foldl (fun a q => addPred a q.1 (f q)) (addPred ac t v) := by
  induction row with
  | nil => intro ac t v _; rfl
  | cons q rest ih =>
      intro ac t v h
      rw [List.foldl_cons, List.foldl_cons,
        ih (addPred ac q.1 (f q)) t v (keys_addPred_mono ac q.1 (f q) h),
        addPred_comm ac t q.1 v (f q) h]

lemma addRow_addRow (w : ℚ) (row : List (Token × ℚ)) :
    ∀ (acc : List (Token × ℚ)) (c1 c2 : ℚ),
      addRow c2 w row (addRow c1 w row acc) = addRow (c1 + c2) w row acc := by
  induction row with
  | nil => intro acc c1 c2; rfl
  | cons q rest ih =>
      intro acc c1 c2
      simp only [addRow, List.foldl_cons]
      rw [addPred_foldl rest (fun q2 => c1 * q2.2 * w) (addPred acc q.1 (c1 * q.2 * w))
        q.1 (c2 * q.2 * w) (keys_addPred_self acc q.1 (c1 * q.2 * w)),
        addPred_addPred]
      have harith : c1 * q.2 * w + c2 * q.2 * w = (c1 + c2) * q.2 * w := by ring
      rw [harith]
      exact ih (addPred acc q.1 ((c1 + c2) * q.2 * w)) c1 c2

lemma calc_unknown (a : MarkovChainAnalyzer) (u : String)
    (h : getA a.user_patterns u = none) :
    calculate_transition_probabilities a (some u)
      = calculate_transition_probabilities a none := by
  simp only [calculate_transition_probabilities]
  rw [if_neg]
  rw [h]
  simp

lemma accumOrder_unknown (e : EnhancedMarkovChainAnalyzer) (u : String)
    (recent : List Token) (alpha : ℚ) (k : Nat)
    (h : getA (e.analyzers k).user_patterns u = none)
    (acc : List (Token × ℚ)) :
    accumOrder e u recent alpha acc k = accumOrder e u recent 1 acc k := by
  simp only [accumOrder]
  by_cases hlen : recent.length < k
  · rw [if_pos hlen, if_pos hlen]
  · rw [if_neg hlen, if_neg hlen, calc_unknown (e.analyzers k) u h]
    cases hg : getA (calculate_transition_probabilities (e.analyzers k) none)
        (pyLastSlice k recent) with
    | none => rfl
    | some row =>
        dsimp only
        rw [addRow_addRow, addRow_addRow]
        have harith : alpha + (1 - alpha) = 1 + (1 - 1) := by ring
        rw [harith]

lemma foldl_accum_unknown (e : EnhancedMarkovChainAnalyzer) (u : String)
    (recent : List Token) (alpha : ℚ)
    (he : ∀ k, getA (e.analyzers k).user_patterns u = none) :
    ∀ (l : List Nat) (acc : List (Token × ℚ)),
      l.foldl (fun acc i => accumOrder e u recent alpha acc (i + 1)) acc
        = l.foldl (fun acc i => accumOrder e u recent 1 acc (i + 1)) acc := by
  intro l
  induction l with
  | nil => intro acc; rfl
  | cons i rest ih =>
      intro acc
      rw [List.foldl_cons, List.foldl_cons,
        accumOrder_unknown e u recent alpha (i + 1) (he (i + 1)) acc]
      exact ih _

/-- Claim C10: `calculate_transition_probabilities` for a user with no
per-user table returns the FULL global probabilities (the scope test falls
through to the global matrix), and consequently `hybrid_prediction` for such
a user adds the global distribution a second time under the personal weight
`1 - alpha_global` — making the blend `α·g + (1-α)·g = g`, i.e. independent
of `alpha_global` (stated here as: equal to the `alpha_global = 1` result). -/
theorem C10_unknown_user_global (a : MarkovChainAnalyzer)
    (e : EnhancedMarkovChainAnalyzer) (u : String) (recent : List Token)
    (alpha : ℚ) (ha : getA a.user_patterns u = none)
    (he : ∀ k, getA (e.analyzers k).user_patterns u = none) :
    calculate_transition_probabilities a (some u)
        = calculate_transition_probabilities a none
    ∧ hybrid_prediction e u recent alpha = hybrid_prediction e u recent 1 := by
  refine ⟨calc_unknown a u ha, ?_⟩
  simp only [hybrid_prediction, rawPredictions]
  rw [foldl_accum_unknown e u recent alpha he (List.range e.max_order) []]

/-- Witness for C10 at a user unknown to both concrete analyzers. -/
theorem C10_unknown_user_global_witness :
    calculate_transition_probabilities demoAnalyzer (some "nobody")
        = calculate_transition_probabilities demoAnalyzer none
    ∧ hybrid_prediction e0 "nobody" ["a"] (1 / 2)
        = hybrid_prediction e0 "nobody" ["a"] 1 :=
  C10_unknown_user_global demoAnalyzer e0 "nobody" ["a"] (1 / 2) (by decide)
    (fun _ => rfl)

/-! ### PrivacyPreservingRecommender (claims C6, C9) -/

/-- A metadata value: Python distinguishes only `isinstance(value, str)` from
everything else, so non-string values are represented by one opaque numeric
constructor. -/
inductive MVal where
  | str (s : String)
  | num (n : Int)
  deriving DecidableEq, Repr

/-- `UserBehavior` (app/models/schemas.py) restricted to the fields the
privacy transform reads; the timestamp is an integer epoch stand-in. -/
structure UserBehavior where
  user_id : String
  behavior_type : String
  item_id : String
  category : Option String := none
  timestamp : Int := 0
  metadata : Option (List (String × MVal)) := none
  deriving DecidableEq, Repr

/-- One entry of `user_profiles` (recommender.py `_update_user_profile`);
the `created_at`/`updated_at` stamps are never read by the claims and are
omitted. -/
structure ProfileData where
  behaviors : List UserBehavior := []
  preferences : List (String × Nat) := []
  privacy_level : Int := 0
  deriving DecidableEq, Repr

/-- `RecommendationItem` restricted to the fields `_calculate_confidence_score`
reads. -/
structure RecommendationItem where
  item_id : String
  score : ℚ
  deriving DecidableEq, Repr

/-- State of `PrivacyPreservingRecommender` (recommender.py `__init__`).
`encrypt` models `self.cipher.encrypt(·.encode()).decode()` (a Fernet cipher
under the instance's fixed key) and `anonymize` models
`_anonymize_user_id` (truncated SHA-256 hex digest); both are opaque string
functions carried in the state. -/
structure PrivacyPreservingRecommender where
  encrypt : String → String
  anonymize : String → String
  user_profiles : List (String × ProfileData) := []

/-- The denylist of `_remove_identifiers` (recommender.py line 113). -/
def sensitive_fields : List String := ["email", "phone", "address", "name", "ip"]

/-- `_remove_identifiers` (recommender.py lines 105-116). -/
def remove_identifiers (metadata : Option (List (String × MVal))) :
    Option (List (String × MVal)) :=
  match metadata with
  | none => none
  | some l =>
      if l = [] then some l
      else some (l.filter fun p => p.1.toLower ∉ sensitive_fields)

/-- `_encrypt_behavior_data` (recommender.py lines 138-159): metadata string
values are encrypted only when `len(value) > 0`; the category is encrypted
only when truthy (an empty-string category becomes `None`); the metadata
always comes back as a dict, never `None`. -/
def encrypt_behavior_data (r : PrivacyPreservingRecommender)
    (behavior : UserBehavior) : UserBehavior :=
  let encrypted_metadata : List (String × MVal) :=
    match behavior.metadata with
    | none => []
    | some m =>
        m.map fun p =>
          match p.2 with
          | MVal.str s2 =>
              if 0 < s2.length then (p.1, MVal.str (r.encrypt s2))
              else (p.1, MVal.str s2)
          | v => (p.1, v)
  { user_id := r.anonymize behavior.user_id
    behavior_type := behavior.behavior_type
    item_id := r.encrypt behavior.item_id
    category :=
      match behavior.category with
      | some c => if c ≠ "" then some (r.encrypt c) else none
      | none => none
    timestamp := behavior.timestamp
    metadata := some encrypted_metadata }

/-- `_apply_privacy_protection` (recommender.py lines 67-97); `noise_minutes`
is the `random.randint(-30, 30)` draw of the level-2 branch, passed in
explicitly. -/
def apply_privacy_protection (r : PrivacyPreservingRecommender)
    (noise_minutes : Int) (behavior : UserBehavior) (privacy_level : Int) :
    UserBehavior :=
  if privacy_level = 0 then behavior
  else if privacy_level = 1 then
    { behavior with
        user_id := r.anonymize behavior.user_id
        metadata := remove_identifiers behavior.metadata }
  else if privacy_level = 2 then
    { behavior with
        user_id := r.anonymize behavior.user_id
        timestamp := behavior.timestamp + noise_minutes }
  else if privacy_level = 3 then
    encrypt_behavior_data r behavior
  else behavior

/-- `_calculate_confidence_score` (recommender.py lines 388-409). -/
def calculate_confidence_score (r : PrivacyPreservingRecommender)
    (user_id : String) (recommendations : List RecommendationItem) : ℚ :=
  if recommendations = [] then 0
  else
    match getA r.user_profiles user_id with
    | some profile =>
        let behavior_count := profile.behaviors.length
        let history_factor := min ((behavior_count : ℚ) / 50) 1
        let avg_score := (recommendations.map RecommendationItem.score).sum
          / (recommendations.length : ℚ)
        (history_factor + avg_score) / 2
    | none => 3 / 10

/-- Claim C6 (amended): for a user with no entry in `user_profiles` the
confidence score is exactly 0.3 for every NON-empty candidate list; for the
empty candidate list the guard `if not recommendations: return 0.0` fires
first and the score is 0.0, not 0.3 (see
`C6_confidence_counterexample`). -/
theorem C6_confidence_new_user (r : PrivacyPreservingRecommender) (u : String)
    (recs : List RecommendationItem)
    (hu : getA r.user_profiles u = none) (hrecs : recs ≠ []) :
    calculate_confidence_score r u recs = 3 / 10 := by
  unfold calculate_confidence_score
  rw [if_neg hrecs, hu]

/-- A recommender with no profiles and identity crypto functions. -/
def r0 : PrivacyPreservingRecommender := { encrypt := id, anonymize := id }

/-- Witness for C6: unknown user, one candidate. -/
theorem C6_confidence_new_user_witness :
    calculate_confidence_score r0 "u" [{ item_id := "i", score := 1 }] = 3 / 10 :=
  C6_confidence_new_user r0 "u" [{ item_id := "i", score := 1 }] rfl (by simp)

/-- Counterexample to C6 as frozen: the empty candidate list for an unknown
user scores 0.0, not 0.3. -/
theorem C6_confidence_counterexample :
    calculate_confidence_score r0 "u" [] = 0 ∧ (0 : ℚ) ≠ 3 / 10 := by
  constructor
  · rfl
  · norm_num

lemma str_length_pos {s : String} (h : s ≠ "") : 0 < s.length := by
  cases s with
  | mk data =>
      cases data with
      | nil => exact absurd rfl h
      | cons c cs => simp [String.length]

/-- Claim C9 (amended): at privacy level 3 the transform hashes the user id,
encrypts the item id, keeps the behavior type and timestamp, encrypts a
present non-empty category (an empty one becomes `None`), and in the
metadata encrypts every NON-empty string value in place while passing
empty strings and non-string values through unchanged.  (As frozen — "every
string-valued field individually encrypted" — the claim fails on
empty-string metadata values, which are passed through unencrypted; see
`C9_encrypted_counterexample`.) -/
theorem C9_encrypted_transform (r : PrivacyPreservingRecommender)
    (noise : Int) (b : UserBehavior) :
    (apply_privacy_protection r noise b 3).user_id = r.anonymize b.user_id
    ∧ (apply_privacy_protection r noise b 3).item_id = r.encrypt b.item_id
    ∧ (apply_privacy_protection r noise b 3).behavior_type = b.behavior_type
    ∧ (apply_privacy_protection r noise b 3).timestamp = b.timestamp
    ∧ (∀ c, b.category = some c → c ≠ "" →
        (apply_privacy_protection r noise b 3).category = some (r.encrypt c))
    ∧ (∀ k s2, (k, MVal.str s2) ∈ b.metadata.getD [] → s2 ≠ "" →
        (k, MVal.str (r.encrypt s2))
          ∈ (apply_privacy_protection r noise b 3).metadata.getD [])
    ∧ (∀ k s2, (k, MVal.str s2) ∈ b.metadata.getD [] → s2 = "" →
        (k, MVal.str s2)
          ∈ (apply_privacy_protection r noise b 3).metadata.getD [])
    ∧ (∀ k n, (k, MVal.num n) ∈ b.metadata.getD [] →
        (k, MVal.num n)
          ∈ (apply_privacy_protection r noise b 3).metadata.getD []) := by
  have happ : apply_privacy_protection r noise b 3 = encrypt_behavior_data r b := by
    simp [apply_privacy_protection]
  rw [happ]
  have hmeta : (encrypt_behavior_data r b).metadata.getD []
      = (b.metadata.getD []).map fun p =>
          match p.2 with
          | MVal.str s2 =>
              if 0 < s2.length then (p.1, MVal.str (r.encrypt s2))
              else (p.1, MVal.str s2)
          | v => (p.1, v) := by
    cases hm : b.metadata with
    | none => simp [encrypt_behavior_data, hm]
    | some m => simp [encrypt_behavior_data, hm]
  refine ⟨rfl, rfl, rfl, rfl, ?_, ?_, ?_, ?_⟩
  · intro c hc hne
    simp only [encrypt_behavior_data, hc]
    rw [if_pos hne]
  · intro k s2 hmem hne
    rw [hmeta]
    have := List.mem_map_of_mem (fun p : String × MVal =>
      match p.2 with
      | MVal.str s2 =>
          if 0 < s2.length then (p.1, MVal.str (r.encrypt s2))
          else (p.1, MVal.str s2)
      | v => (p.1, v)) hmem
    simpa [if_pos (str_length_pos hne)] using this
  · intro k s2 hmem heq
    subst heq
    rw [hmeta]
    have := List.mem_map_of_mem (fun p : String × MVal =>
      match p.2 with
      | MVal.str s2 =>
          if 0 < s2.length then (p.1, MVal.str (r.encrypt s2))
          else (p.1, MVal.str s2)
      | v => (p.1, v)) hmem
    simpa using this
  · intro k n hmem
    rw [hmeta]
    have := List.mem_map_of_mem (fun p : String × MVal =>
      match p.2 with
      | MVal.str s2 =>
          if 0 < s2.length then (p.1, MVal.str (r.encrypt s2))
          else (p.1, MVal.str s2)
      | v => (p.1, v)) hmem
    simpa using this

/-- A recommender with visibly non-trivial crypto functions. -/
def rx : PrivacyPreservingRecommender :=
  { encrypt := fun s2 => s2 ++ "!", anonymize := fun s2 => "h" ++ s2 }

/-- A behavior with an empty-string metadata value. -/
def bx : UserBehavior :=
  { user_id := "u", behavior_type := "VIEW", item_id := "i",
    metadata := some [("k", MVal.str "")] }

/-- Counterexample to C9 as frozen: the empty-string metadata value is a
string-valued field, yet it survives level 3 unencrypted — the encrypted
form is absent from the result. -/
theorem C9_encrypted_counterexample :
    ("k", MVal.str "") ∈ bx.metadata.getD []
    ∧ (apply_privacy_protection rx 0 bx 3).metadata.getD []
        = [("k", MVal.str "")]
    ∧ MVal.str (rx.encrypt "") ≠ MVal.str ""
    ∧ ("k", MVal.str (rx.encrypt ""))
        ∉ (apply_privacy_protection rx 0 bx 3).metadata.getD [] := by decide

/-- A behavior exercising category, string and non-string metadata. -/
def bw : UserBehavior :=
  { user_id := "u", behavior_type := "VIEW", item_id := "i",
    category := some "c",
    metadata := some [("k", MVal.str "x"), ("n", MVal.num 5)] }

/-- Witness for C9 on a concrete behavior. -/
theorem C9_encrypted_transform_witness :
    (apply_privacy_protection rx 0 bw 3).category = some (rx.encrypt "c")
    ∧ ("k", MVal.str (rx.encrypt "x"))
        ∈ (apply_privacy_protection rx 0 bw 3).metadata.getD []
    ∧ ("n", MVal.num 5)
        ∈ (apply_privacy_protection rx 0 bw 3).metadata.getD [] :=
  ⟨(C9_encrypted_transform rx 0 bw).2.2.2.2.1 "c" rfl (by decide),
   (C9_encrypted_transform rx 0 bw).2.2.2.2.2.1 "k" "x" (by decide) (by decide),
   (C9_encrypted_transform rx 0 bw).2.2.2.2.2.2.2 "n" 5 (by decide)⟩

end MarkovSpec
